import Mathlib

/-!
Verification of the data-model core of an SVM-HMM structural SVM
(`svm_struct_api_types.h`): the tag registry interning tag strings to dense
integer IDs, tokens with sparse feature vectors, reference-shared pattern and
label sequence containers, and the learning-parameter record.

Reference-counted sharing (`shared_ptr`) is embedded with an explicit heap of
cells addressed by natural-number handles; a container value holds the handle,
and copying a container copies the handle only, exactly as the copy
constructors in the header do.
-/

/-- `typedef string tag` -/
abbrev tag := String

/-- `typedef unsigned int tagID` -/
abbrev tagID := Nat

/-- Modelled from the spec: the tag registry state behind `registerTag`,
`getNumTags` and `getTagByID`, whose definitions are not under `src/` (the
header only declares them `extern`).  The registry is the list of registered
tag strings in registration order; a tag's ID is its position. -/
structure TagRegistry where
  tags : List tag

/-- The registry before any tag has been registered. -/
def emptyRegistry : TagRegistry := ⟨[]⟩

/-- Position of the first occurrence of `t` in `l`, if any. -/
def findTag : List tag → tag → Option Nat
  | [], _ => none
  | x :: xs, t => if x = t then some 0 else (findTag xs t).map (· + 1)

/-- Modelled from the spec: `registerTag(t)` — if the tag string has been seen
before, return its existing ID; otherwise assign the next unused ID
(monotonically increasing from 0) and return it. -/
def registerTag (r : TagRegistry) (t : tag) : TagRegistry × tagID :=
  match findTag r.tags t with
  | some i => (r, i)
  | none => (⟨r.tags ++ [t]⟩, r.tags.length)

/-- Modelled from the spec: `getNumTags()` — the number of tags registered. -/
def getNumTags (r : TagRegistry) : Nat := r.tags.length

/-- Modelled from the spec: `getTagByID(id)` — the tag with ID `id`, failing
with an invalid-argument error when `id >= getNumTags()`. -/
def getTagByID (r : TagRegistry) (id : tagID) : Except String tag :=
  if h : id < r.tags.length then Except.ok (r.tags.get ⟨id, h⟩)
  else Except.error "invalid argument"

/-- The ID `registerTag` returns for `t` on registry `r`. -/
def regID (r : TagRegistry) (t : tag) : tagID := (registerTag r t).2

/-- Run `registerTag` over a whole list of tags, as corpus reading does. -/
def registerAll (ts : List tag) : TagRegistry :=
  ts.foldl (fun r t => (registerTag r t).1) emptyRegistry

lemma findTag_lt {l : List tag} {t : tag} {i : Nat}
    (h : findTag l t = some i) : i < l.length := by
  induction l generalizing i with
  | nil => simp [findTag] at h
  | cons x xs ih =>
    simp only [findTag] at h
    by_cases hx : x = t
    · simp only [hx, if_true] at h
      obtain rfl : (0 : Nat) = i := Option.some.inj h
      simp
    · rcases ho : findTag xs t with _ | j
      · simp [hx, ho] at h
      · simp only [hx, if_false, ho, Option.map_some] at h
        obtain rfl : j + 1 = i := Option.some.inj h
        have := ih ho
        simp only [List.length_cons]
        omega

lemma findTag_get {l : List tag} {t : tag} {i : Nat}
    (h : findTag l t = some i) :
    ∃ hi : i < l.length, l.get ⟨i, hi⟩ = t := by
  induction l generalizing i with
  | nil => simp [findTag] at h
  | cons x xs ih =>
    simp only [findTag] at h
    by_cases hx : x = t
    · simp only [hx, if_true] at h
      obtain rfl : (0 : Nat) = i := Option.some.inj h
      exact ⟨by simp, hx⟩
    · rcases ho : findTag xs t with _ | j
      · simp [hx, ho] at h
      · simp only [hx, if_false, ho, Option.map_some] at h
        obtain rfl : j + 1 = i := Option.some.inj h
        obtain ⟨hjl, hget⟩ := ih ho
        exact ⟨by simpa using Nat.succ_lt_succ hjl, hget⟩

lemma findTag_eq_none {l : List tag} {t : tag} :
    findTag l t = none ↔ t ∉ l := by
  induction l with
  | nil => simp [findTag]
  | cons x xs ih =>
    simp only [findTag, List.mem_cons]
    by_cases hx : x = t
    · simp [hx]
    · simp [hx, ih, Ne.symm hx]

lemma findTag_mem {l : List tag} {t : tag} (h : t ∈ l) :
    ∃ i, findTag l t = some i := by
  rcases ho : findTag l t with _ | i
  · exact absurd (findTag_eq_none.mp ho) (not_not_intro h)
  · exact ⟨i, rfl⟩

lemma findTag_append_of_some {l l2 : List tag} {t : tag} {i : Nat}
    (h : findTag l t = some i) : findTag (l ++ l2) t = some i := by
  induction l generalizing i with
  | nil => simp [findTag] at h
  | cons x xs ih =>
    simp only [findTag] at h ⊢
    by_cases hx : x = t
    · simpa [hx] using h
    · rcases ho : findTag xs t with _ | j
      · simp [hx, ho] at h
      · simp only [hx, if_false, ho] at h
        obtain rfl : j + 1 = i := Option.some.inj h
        simp only [hx, if_false]
        show Option.map (fun x => x + 1) (findTag (xs ++ l2) t) = some (j + 1)
        rw [ih ho]
        rfl

lemma findTag_append_self {l : List tag} {t : tag}
    (h : findTag l t = none) : findTag (l ++ [t]) t = some l.length := by
  induction l with
  | nil => simp [findTag]
  | cons x xs ih =>
    simp only [findTag] at h ⊢
    by_cases hx : x = t
    · simp [hx] at h
    · rcases ho : findTag xs t with _ | j
      · simp [hx, ih ho]
      · simp [hx, ho] at h

lemma findTag_nodup_get {l : List tag} (hl : l.Nodup) (i : Nat)
    (hi : i < l.length) : findTag l (l.get ⟨i, hi⟩) = some i := by
  induction l generalizing i with
  | nil => simp at hi
  | cons x xs ih =>
    rcases i with _ | j
    · simp [findTag]
    · have hx : x ∉ xs := (List.nodup_cons.mp hl).1
      have hj : j < xs.length := by simpa using Nat.lt_of_succ_lt_succ hi
      have hget : (x :: xs).get ⟨j + 1, hi⟩ = xs.get ⟨j, hj⟩ := rfl
      rw [hget]
      have hne : x ≠ xs.get ⟨j, hj⟩ := by
        intro heq
        exact hx (heq ▸ List.get_mem xs j hj)
      simp only [findTag, List.get_eq_getElem] at hne ⊢
      have hrec := ih (List.nodup_cons.mp hl).2 j hj
      simp only [List.get_eq_getElem] at hrec
      simp [hne, hrec]

lemma registerTag_nodup {r : TagRegistry} (h : r.tags.Nodup) (t : tag) :
    ((registerTag r t).1).tags.Nodup := by
  unfold registerTag
  rcases ho : findTag r.tags t with _ | i
  · simp only
    rw [List.nodup_append]
    exact ⟨h, List.nodup_singleton t, by
      simp [List.Disjoint]
      intro a ha hat
      exact absurd (hat ▸ ha) (findTag_eq_none.mp ho)⟩
  · simpa using h

lemma registerAll_nodup (ts : List tag) : (registerAll ts).tags.Nodup := by
  suffices h : ∀ (ts : List tag) (r : TagRegistry), r.tags.Nodup →
      (ts.foldl (fun r t => (registerTag r t).1) r).tags.Nodup by
    exact h ts emptyRegistry (by simp [emptyRegistry])
  intro ts
  induction ts with
  | nil => intro r hr; simpa using hr
  | cons t ts ih =>
    intro r hr
    exact ih _ (registerTag_nodup hr t)

lemma regID_of_mem {r : TagRegistry} {t : tag} {i : Nat}
    (h : findTag r.tags t = some i) : regID r t = i := by
  simp [regID, registerTag, h]

lemma regID_of_not_mem {r : TagRegistry} {t : tag}
    (h : findTag r.tags t = none) : regID r t = r.tags.length := by
  simp [regID, registerTag, h]

/-- A heap of `shared_ptr`-owned cells, each holding a growable vector of
elements; a handle (index into `cells`) models the shared pointer itself.
Copying a handle aliases the cell; writing through any aliasing handle is
visible through all of them. -/
structure Heap (A : Type) where
  cells : List (List A)

/-- Dereference a handle (out-of-range handles read as an empty cell). -/
def Heap.read {A : Type} (h : Heap A) (ptr : Nat) : List A :=
  (h.cells.getD ptr [])

/-- Overwrite the cell a handle points to. -/
def Heap.write {A : Type} (h : Heap A) (ptr : Nat) (v : List A) : Heap A :=
  ⟨h.cells.set ptr v⟩

/-- `new vector<...>()`: allocate a fresh empty cell, returning its handle. -/
def Heap.alloc {A : Type} (h : Heap A) : Heap A × Nat :=
  (⟨h.cells ++ [[]]⟩, h.cells.length)

/-- A handle is valid when it points at an existing cell. -/
def Heap.valid {A : Type} (h : Heap A) (ptr : Nat) : Prop :=
  ptr < h.cells.length

instance heapValidDecidable {A : Type} (h : Heap A) (ptr : Nat) :
    Decidable (h.valid ptr) :=
  inferInstanceAs (Decidable (ptr < h.cells.length))

/-- One entry of an `SVECTOR`'s sparse word list: feature number and weight.
Doubles are embedded as rationals (every constant in the claims is exactly
representable). -/
abbrev featEntry := Nat × ℚ

/-- Modelled from the spec: `sprod_ns` from svm_light (the svm_light sources
are not under `src/`): the dot product of a sparse vector with a dense weight
array, summing `weights[wnum] * weight` over the sparse entries. -/
def sprod_ns (weights : List ℚ) (v : List featEntry) : ℚ :=
  v.foldl (fun acc p => acc + weights.getD p.1 0 * p.2) 0

/-- `class token`: textual representation plus a `shared_ptr<SVECTOR>` handle
into the feature heap. -/
structure token where
  str : String
  features : Nat

/-- Modelled from the spec: the token copy constructor / assignment (declared
in the header, defined elsewhere): the copy takes the same string and shares
the underlying feature vector (the `shared_ptr` is copied, not the cell). -/
def token.copy (t : token) : token :=
  { str := t.str, features := t.features }

/-- `token::getString` -/
def token.getString (t : token) : String := t.str

/-- `token::dotProduct(weights)`:
`sprod_ns(const_cast<double*>(weights), features.get())`. -/
def token.dotProduct (fs : Heap featEntry) (t : token) (weights : List ℚ) : ℚ :=
  sprod_ns weights (fs.read t.features)

/-- `class pattern`: the x-part of an example, a `shared_ptr` handle to a
vector of tokens. -/
structure pattern where
  emissions : Nat

/-- `pattern() : emissions(new vector<token>())` -/
def pattern.new (h : Heap token) : Heap token × pattern :=
  let a := h.alloc
  (a.1, ⟨a.2⟩)

/-- `pattern(const pattern& p) : emissions(p.emissions)` — the copy
constructor shares the emissions vector (assignment is identical). -/
def pattern.copy (p : pattern) : pattern :=
  { emissions := p.emissions }

/-- `pattern::getLength()`: `emissions->size()` -/
def pattern.getLength (h : Heap token) (p : pattern) : Nat :=
  (h.read p.emissions).length

/-- `pattern::getToken(index)`: `(*emissions)[index]` (unchecked vector
indexing; out-of-range reads are modelled by a default token). -/
def pattern.getToken (h : Heap token) (p : pattern) (index : Nat) : token :=
  (h.read p.emissions).getD index ⟨"", 0⟩

/-- `pattern::appendToken(t)`: `emissions->push_back(t)` -/
def pattern.appendToken (h : Heap token) (p : pattern) (t : token) :
    Heap token :=
  h.write p.emissions (h.read p.emissions ++ [t])

/-- `class label`: the y-part of an example, a `shared_ptr` handle to a
vector of tag IDs. -/
structure label where
  tags : Nat

/-- `label() : tags(new vector<tagID>())` -/
def label.new (h : Heap tagID) : Heap tagID × label :=
  let a := h.alloc
  (a.1, ⟨a.2⟩)

/-- `label(const label& l) : tags(l.tags)` — the copy constructor shares the
tags vector (assignment is identical). -/
def label.copy (l : label) : label :=
  { tags := l.tags }

/-- `label::isEmpty()`: `tags->empty()` -/
def label.isEmpty (h : Heap tagID) (l : label) : Bool :=
  (h.read l.tags).isEmpty

/-- `label::getLength()`: `tags->size()` -/
def label.getLength (h : Heap tagID) (l : label) : Nat :=
  (h.read l.tags).length

/-- `label::getTag(index)`: `(*tags)[index]` (unchecked vector indexing). -/
def label.getTag (h : Heap tagID) (l : label) (index : Nat) : tagID :=
  (h.read l.tags).getD index 0

/-- `label::appendTag(id)`: `tags->push_back(id)` -/
def label.appendTag (h : Heap tagID) (l : label) (id : tagID) : Heap tagID :=
  h.write l.tags (h.read l.tags ++ [id])

/-- Modelled from the spec: `label::operator==` is declared in the header but
defined elsewhere; per the spec it is element-wise tag-ID comparison with the
same length required. -/
def label.beq (h : Heap tagID) (l1 l2 : label) : Bool :=
  (label.getLength h l1 == label.getLength h l2) &&
    (List.range (label.getLength h l1)).all
      (fun i => label.getTag h l1 i == label.getTag h l2 i)

/-- `#define DEFAULT_EPS 0.1` -/
def DEFAULT_EPS : ℚ := 1 / 10

/-- `#define DEFAULT_RESCALING 2` — default loss rescaling method:
1 = slack rescaling, 2 = margin rescaling. -/
def DEFAULT_RESCALING : Int := 2

/-- `#define DEFAULT_LOSS_FCT 1` — default loss function: Hamming loss. -/
def DEFAULT_LOSS_FCT : Int := 1

/-- `struct struct_learn_parm`.  Per the header's field comments, `loss_type`
holds the rescaling method chosen by `-r` (1 = slack rescaling, 2 = margin
rescaling) and `loss_function` the loss function chosen by `-l`. -/
structure struct_learn_parm where
  epsilon : ℚ
  newconstretrain : ℚ
  ccache_size : Int
  C : ℚ
  custom_argv : List String
  custom_argc : Int
  slack_norm : Int
  loss_type : Int
  loss_function : Int
  featureSpaceSize : Nat

/-- Modelled from the spec: the default initialization of the learn
parameters performed by svm_struct's argument parsing (not under `src/`),
restricted to the fields whose defaults the header fixes: the precision
`epsilon` gets `DEFAULT_EPS`, the rescaling field `loss_type` gets
`DEFAULT_RESCALING`, and the loss-function field `loss_function` gets
`DEFAULT_LOSS_FCT`. -/
def setDefaultParams (p : struct_learn_parm) : struct_learn_parm :=
  { p with
    epsilon := DEFAULT_EPS
    loss_type := DEFAULT_RESCALING
    loss_function := DEFAULT_LOSS_FCT }

/-- The rescaling mode is slack rescaling (value 1 of `loss_type`). -/
def slackRescaling (p : struct_learn_parm) : Prop := p.loss_type = 1

/-- The rescaling mode is margin rescaling (value 2 of `loss_type`). -/
def marginRescaling (p : struct_learn_parm) : Prop := p.loss_type = 2

lemma getD_set_self {A : Type} (l : List A) (i : Nat) (v d : A)
    (h : i < l.length) : (l.set i v).getD i d = v := by
  induction l generalizing i with
  | nil => simp at h
  | cons x xs ih =>
    rcases i with _ | j
    · rfl
    · exact ih j (by simpa using Nat.lt_of_succ_lt_succ h)

lemma listSet_getD_self {A : Type} (l : List (List A)) (i : Nat)
    (v : List A) (h : i < l.length) : (l.set i v).getD i [] = v :=
  getD_set_self l i v [] h

lemma getD_append_left {A : Type} (l l2 : List A) (i : Nat) (d : A)
    (h : i < l.length) : (l ++ l2).getD i d = l.getD i d := by
  induction l generalizing i with
  | nil => simp at h
  | cons x xs ih =>
    rcases i with _ | j
    · rfl
    · exact ih j (by simpa using Nat.lt_of_succ_lt_succ h)

lemma getD_append_length {A : Type} (l : List A) (v d : A) :
    (l ++ [v]).getD l.length d = v := by
  induction l with
  | nil => rfl
  | cons x xs ih => exact ih

lemma read_write_self {A : Type} (h : Heap A) (ptr : Nat) (v : List A)
    (hv : h.valid ptr) : (h.write ptr v).read ptr = v :=
  listSet_getD_self h.cells ptr v hv

lemma get_concat_length {A : Type} (l : List A) (v : A)
    (h : l.length < (l ++ [v]).length) : (l ++ [v]).get ⟨l.length, h⟩ = v := by
  induction l with
  | nil => rfl
  | cons x xs ih => exact ih (Nat.lt_of_succ_lt_succ h)

/-- C1: the mapping from registered tag strings to IDs is a bijection onto
`{0 .. getNumTags()-1}`; `registerTag` assigns IDs monotonically increasing
from 0, and once assigned an ID is never reassigned or reused by any later
`registerTag` call. -/
theorem registerTag_id_bijection_stable (ts : List tag) :
    (∀ id, id < getNumTags (registerAll ts) →
      ∃! t, t ∈ (registerAll ts).tags ∧ regID (registerAll ts) t = id) ∧
    (∀ t, t ∉ (registerAll ts).tags →
      regID (registerAll ts) t = getNumTags (registerAll ts) ∧
      getNumTags (registerTag (registerAll ts) t).1 =
        getNumTags (registerAll ts) + 1) ∧
    (∀ t t2, t ∈ (registerAll ts).tags →
      regID ((registerTag (registerAll ts) t2).1) t =
        regID (registerAll ts) t) := by
  have hnd := registerAll_nodup ts
  refine ⟨?_, ?_, ?_⟩
  · intro id hid
    have hid2 : id < (registerAll ts).tags.length := hid
    refine ⟨(registerAll ts).tags.get ⟨id, hid2⟩,
      ⟨List.get_mem _ _ _, regID_of_mem (findTag_nodup_get hnd id hid2)⟩, ?_⟩
    rintro t2 ⟨hmem, hreg⟩
    obtain ⟨i, hf⟩ := findTag_mem hmem
    have hi : i = id := by rw [regID_of_mem hf] at hreg; exact hreg
    subst hi
    obtain ⟨hlt, hget⟩ := findTag_get hf
    exact hget.symm
  · intro t ht
    have hn : findTag (registerAll ts).tags t = none := findTag_eq_none.mpr ht
    exact ⟨regID_of_not_mem hn, by simp [registerTag, hn, getNumTags]⟩
  · intro t t2 hmem
    obtain ⟨i, hf⟩ := findTag_mem hmem
    rw [regID_of_mem hf]
    rcases ho : findTag (registerAll ts).tags t2 with _ | j
    · have : ((registerTag (registerAll ts) t2).1).tags =
          (registerAll ts).tags ++ [t2] := by simp [registerTag, ho]
      refine regID_of_mem ?_
      rw [this]
      exact findTag_append_of_some hf
    · have : (registerTag (registerAll ts) t2).1 = registerAll ts := by
        simp [registerTag, ho]
      rw [this]
      exact regID_of_mem hf

/-- Witness for C1 at the toy corpus of the spec: tags "N", "V". -/
theorem registerTag_id_bijection_stable_witness :
    (∃! t, t ∈ (registerAll ["N", "V"]).tags ∧
      regID (registerAll ["N", "V"]) t = 1) ∧
    regID (registerAll ["N", "V"]) "A" = getNumTags (registerAll ["N", "V"]) ∧
    regID ((registerTag (registerAll ["N", "V"]) "A").1) "N" =
      regID (registerAll ["N", "V"]) "N" :=
  ⟨(registerTag_id_bijection_stable ["N", "V"]).1 1 (by decide),
   ((registerTag_id_bijection_stable ["N", "V"]).2.1 "A" (by decide)).1,
   (registerTag_id_bijection_stable ["N", "V"]).2.2 "N" "A" (by decide)⟩

/-- C2: interning — distinct registered tag strings receive distinct IDs, and
a second `registerTag` call with the same string returns exactly the ID of
the first call. -/
theorem registerTag_interning (r : TagRegistry) (t1 t2 : tag) :
    (t1 ∈ r.tags → t2 ∈ r.tags → t1 ≠ t2 → regID r t1 ≠ regID r t2) ∧
    regID ((registerTag r t1).1) t1 = regID r t1 := by
  constructor
  · intro h1 h2 hne heq
    obtain ⟨i1, hf1⟩ := findTag_mem h1
    obtain ⟨i2, hf2⟩ := findTag_mem h2
    rw [regID_of_mem hf1, regID_of_mem hf2] at heq
    subst heq
    obtain ⟨hl1, hg1⟩ := findTag_get hf1
    obtain ⟨hl2, hg2⟩ := findTag_get hf2
    exact hne (hg1.symm.trans hg2)
  · rcases ho : findTag r.tags t1 with _ | i
    · have htags : ((registerTag r t1).1).tags = r.tags ++ [t1] := by
        simp [registerTag, ho]
      have hfind : findTag ((registerTag r t1).1).tags t1 =
          some r.tags.length := by
        rw [htags]; exact findTag_append_self ho
      rw [regID_of_mem hfind, regID_of_not_mem ho]
    · have : (registerTag r t1).1 = r := by simp [registerTag, ho]
      rw [this]

/-- Witness for C2 at the toy corpus of the spec. -/
theorem registerTag_interning_witness :
    regID (registerAll ["N", "V"]) "N" ≠ regID (registerAll ["N", "V"]) "V" ∧
    regID ((registerTag (registerAll ["N", "V"]) "N").1) "N" =
      regID (registerAll ["N", "V"]) "N" :=
  ⟨(registerTag_interning (registerAll ["N", "V"]) "N" "V").1
      (by decide) (by decide) (by decide),
   (registerTag_interning (registerAll ["N", "V"]) "N" "V").2⟩

/-- C3: `getTagByID` round-trips with `registerTag` — after registering `t`,
looking up the returned ID yields `t` — and on any ID `>= getNumTags()` it
fails with the invalid-argument error instead of returning a default tag. -/
theorem getTagByID_round_trip_and_error (r : TagRegistry) (t : tag)
    (id : tagID) :
    getTagByID ((registerTag r t).1) ((registerTag r t).2) = Except.ok t ∧
    (getNumTags r ≤ id →
      getTagByID r id = Except.error "invalid argument") := by
  constructor
  · rcases ho : findTag r.tags t with _ | i
    · have h1 : (registerTag r t).1 = ⟨r.tags ++ [t]⟩ := by
        simp [registerTag, ho]
      have h2 : (registerTag r t).2 = r.tags.length := by
        simp [registerTag, ho]
      rw [h1, h2]
      have hlt : r.tags.length < (r.tags ++ [t]).length := by simp
      simp only [getTagByID, dif_pos hlt]
      rw [get_concat_length r.tags t hlt]
    · have h1 : (registerTag r t).1 = r := by simp [registerTag, ho]
      have h2 : (registerTag r t).2 = i := by simp [registerTag, ho]
      rw [h1, h2]
      obtain ⟨hlt, hget⟩ := findTag_get ho
      simp only [getTagByID, dif_pos hlt]
      rw [hget]
  · intro hle
    have hle2 : r.tags.length ≤ id := hle
    unfold getTagByID
    rw [dif_neg (Nat.not_lt.mpr hle2)]

/-- Witness for C3: registering "V" after "N" round-trips, and ID 2 on a
two-tag registry is rejected. -/
theorem getTagByID_round_trip_and_error_witness :
    getTagByID ((registerTag (registerAll ["N"]) "V").1)
        ((registerTag (registerAll ["N"]) "V").2) = Except.ok "V" ∧
    getTagByID (registerAll ["N", "V"]) 2 =
      Except.error "invalid argument" :=
  ⟨(getTagByID_round_trip_and_error (registerAll ["N"]) "V" 0).1,
   (getTagByID_round_trip_and_error (registerAll ["N", "V"]) "V" 2).2
      (by decide)⟩

lemma getD_eq_get {A : Type} (l : List A) (i : Nat) (d : A)
    (h : i < l.length) : l.getD i d = l.get ⟨i, h⟩ := by
  induction l generalizing i with
  | nil => simp at h
  | cons x xs ih =>
    rcases i with _ | j
    · rfl
    · exact ih j (by simpa using Nat.lt_of_succ_lt_succ h)

lemma valid_write {A : Type} (h : Heap A) (ptr ptr2 : Nat) (v : List A) :
    (h.write ptr v).valid ptr2 ↔ h.valid ptr2 := by
  simp [Heap.write, Heap.valid]

lemma appendToken_valid (h : Heap token) (p : pattern) (t : token)
    (ptr : Nat) : (pattern.appendToken h p t).valid ptr ↔ h.valid ptr :=
  valid_write h p.emissions ptr _

lemma appendToken_read (h : Heap token) (p : pattern) (t : token)
    (hv : h.valid p.emissions) :
    (pattern.appendToken h p t).read p.emissions =
      h.read p.emissions ++ [t] :=
  read_write_self h p.emissions _ hv

lemma appendTag_read (h : Heap tagID) (l : label) (id : tagID)
    (hv : h.valid l.tags) :
    (label.appendTag h l id).read l.tags = h.read l.tags ++ [id] :=
  read_write_self h l.tags _ hv

/-- C4: copying a Pattern or a Label shares the underlying sequence storage —
every read through the copy returns what the original returns, and an append
performed through one handle is visible through every handle aliasing the
same storage (no copy-on-write isolation). -/
theorem pattern_label_copy_shares_storage (hp : Heap token) (p : pattern)
    (hl : Heap tagID) (l : label) :
    (∀ i, pattern.getToken hp (pattern.copy p) i = pattern.getToken hp p i) ∧
    (∀ i, label.getTag hl (label.copy l) i = label.getTag hl l i) ∧
    (hp.valid p.emissions → ∀ q : pattern, q.emissions = p.emissions →
      ∀ t : token,
      pattern.getLength (pattern.appendToken hp p t) q =
        pattern.getLength hp q + 1 ∧
      pattern.getToken (pattern.appendToken hp p t) q
        (pattern.getLength hp q) = t) ∧
    (hl.valid l.tags → ∀ m : label, m.tags = l.tags → ∀ id : tagID,
      label.getLength (label.appendTag hl l id) m =
        label.getLength hl m + 1 ∧
      label.getTag (label.appendTag hl l id) m (label.getLength hl m) = id) := by
  refine ⟨fun i => rfl, fun i => rfl, ?_, ?_⟩
  · intro hv q hq t
    constructor
    · simp only [pattern.getLength, hq]
      rw [appendToken_read hp p t hv]
      simp
    · simp only [pattern.getToken, pattern.getLength, hq]
      rw [appendToken_read hp p t hv]
      exact getD_append_length _ _ _
  · intro hv m hm id
    constructor
    · simp only [label.getLength, hm]
      rw [appendTag_read hl l id hv]
      simp
    · simp only [label.getTag, label.getLength, hm]
      rw [appendTag_read hl l id hv]
      exact getD_append_length _ _ _

/-- Witness for C4: reads agree through a copy, and an append through the
original is visible through the copy for both a Pattern and a Label. -/
theorem pattern_label_copy_shares_storage_witness :
    pattern.getToken (Heap.mk [[⟨"a", 0⟩]]) (pattern.copy ⟨0⟩) 0 =
      pattern.getToken (Heap.mk [[⟨"a", 0⟩]]) ⟨0⟩ 0 ∧
    pattern.getLength
        (pattern.appendToken (Heap.mk [[⟨"a", 0⟩]]) ⟨0⟩ ⟨"b", 1⟩)
        (pattern.copy ⟨0⟩) =
      pattern.getLength (Heap.mk [[⟨"a", 0⟩]]) (pattern.copy ⟨0⟩) + 1 ∧
    label.getTag (label.appendTag (Heap.mk [[5]]) ⟨0⟩ 7) (label.copy ⟨0⟩)
        (label.getLength (Heap.mk [[5]]) (label.copy ⟨0⟩)) = 7 :=
  ⟨(pattern_label_copy_shares_storage (Heap.mk [[⟨"a", 0⟩]]) ⟨0⟩
      (Heap.mk [[5]]) ⟨0⟩).1 0,
   ((pattern_label_copy_shares_storage (Heap.mk [[⟨"a", 0⟩]]) ⟨0⟩
      (Heap.mk [[5]]) ⟨0⟩).2.2.1 (by decide) (pattern.copy ⟨0⟩) rfl
      ⟨"b", 1⟩).1,
   ((pattern_label_copy_shares_storage (Heap.mk [[⟨"a", 0⟩]]) ⟨0⟩
      (Heap.mk [[5]]) ⟨0⟩).2.2.2 (by decide) (label.copy ⟨0⟩) rfl 7).2⟩

/-- Three consecutive `appendToken` calls through the same pattern handle. -/
def appendTokens3 (h : Heap token) (p : pattern) (t1 t2 t3 : token) :
    Heap token :=
  pattern.appendToken (pattern.appendToken (pattern.appendToken h p t1) p t2)
    p t3

/-- C8: `appendToken` increments the length by one and preserves insertion
order — after three appends on a pattern the length grew by three and the
three tokens are read back, in order, right after the original contents,
which are unchanged. -/
theorem appendToken_insertion_order (h : Heap token) (p : pattern)
    (hv : h.valid p.emissions) (t1 t2 t3 : token) :
    (∀ t : token, pattern.getLength (pattern.appendToken h p t) p =
      pattern.getLength h p + 1) ∧
    pattern.getLength (appendTokens3 h p t1 t2 t3) p =
      pattern.getLength h p + 3 ∧
    (∀ i, i < pattern.getLength h p →
      pattern.getToken (appendTokens3 h p t1 t2 t3) p i =
        pattern.getToken h p i) ∧
    pattern.getToken (appendTokens3 h p t1 t2 t3) p
      (pattern.getLength h p) = t1 ∧
    pattern.getToken (appendTokens3 h p t1 t2 t3) p
      (pattern.getLength h p + 1) = t2 ∧
    pattern.getToken (appendTokens3 h p t1 t2 t3) p
      (pattern.getLength h p + 2) = t3 := by
  have hv1 : (pattern.appendToken h p t1).valid p.emissions :=
    (appendToken_valid h p t1 p.emissions).mpr hv
  have hv2 : (pattern.appendToken (pattern.appendToken h p t1) p t2).valid
      p.emissions :=
    (appendToken_valid _ p t2 p.emissions).mpr hv1
  have hr3 : (appendTokens3 h p t1 t2 t3).read p.emissions =
      h.read p.emissions ++ [t1] ++ [t2] ++ [t3] := by
    unfold appendTokens3
    rw [appendToken_read _ p t3 hv2, appendToken_read _ p t2 hv1,
      appendToken_read h p t1 hv]
  refine ⟨?_, ?_, ?_, ?_, ?_, ?_⟩
  · intro t
    simp [pattern.getLength, appendToken_read h p t hv]
  · simp [pattern.getLength, hr3]
  · intro i hi
    simp only [pattern.getToken, hr3]
    rw [getD_append_left _ _ i _ (by simp [pattern.getLength] at hi; simp; omega),
      getD_append_left _ _ i _ (by simp [pattern.getLength] at hi; simp; omega),
      getD_append_left _ _ i _ (by simpa [pattern.getLength] using hi)]
  · simp only [pattern.getToken, pattern.getLength, hr3]
    rw [getD_append_left _ _ _ _ (by simp),
      getD_append_left _ _ _ _ (by simp)]
    exact getD_append_length _ _ _
  · simp only [pattern.getToken, pattern.getLength, hr3]
    rw [getD_append_left _ _ _ _ (by simp)]
    have : (h.read p.emissions).length + 1 =
        (h.read p.emissions ++ [t1]).length := by simp
    rw [this]
    exact getD_append_length _ _ _
  · simp only [pattern.getToken, pattern.getLength, hr3]
    have : (h.read p.emissions).length + 2 =
        (h.read p.emissions ++ [t1] ++ [t2]).length := by simp
    rw [this]
    exact getD_append_length _ _ _

/-- Witness for C8: the spec's scenario — a fresh pattern, three appends,
length 3, tokens back in insertion order. -/
theorem appendToken_insertion_order_witness :
    pattern.getLength
      (appendTokens3 (pattern.new ⟨[]⟩).1 (pattern.new ⟨[]⟩).2
        ⟨"the", 0⟩ ⟨"cat", 1⟩ ⟨"sat", 2⟩) (pattern.new ⟨[]⟩).2 = 3 ∧
    pattern.getToken
      (appendTokens3 (pattern.new ⟨[]⟩).1 (pattern.new ⟨[]⟩).2
        ⟨"the", 0⟩ ⟨"cat", 1⟩ ⟨"sat", 2⟩) (pattern.new ⟨[]⟩).2 0 =
      ⟨"the", 0⟩ ∧
    pattern.getToken
      (appendTokens3 (pattern.new ⟨[]⟩).1 (pattern.new ⟨[]⟩).2
        ⟨"the", 0⟩ ⟨"cat", 1⟩ ⟨"sat", 2⟩) (pattern.new ⟨[]⟩).2 1 =
      ⟨"cat", 1⟩ ∧
    pattern.getToken
      (appendTokens3 (pattern.new ⟨[]⟩).1 (pattern.new ⟨[]⟩).2
        ⟨"the", 0⟩ ⟨"cat", 1⟩ ⟨"sat", 2⟩) (pattern.new ⟨[]⟩).2 2 =
      ⟨"sat", 2⟩ :=
  ⟨(appendToken_insertion_order (pattern.new ⟨[]⟩).1 (pattern.new ⟨[]⟩).2
      (by decide) ⟨"the", 0⟩ ⟨"cat", 1⟩ ⟨"sat", 2⟩).2.1,
   (appendToken_insertion_order (pattern.new ⟨[]⟩).1 (pattern.new ⟨[]⟩).2
      (by decide) ⟨"the", 0⟩ ⟨"cat", 1⟩ ⟨"sat", 2⟩).2.2.2.1,
   (appendToken_insertion_order (pattern.new ⟨[]⟩).1 (pattern.new ⟨[]⟩).2
      (by decide) ⟨"the", 0⟩ ⟨"cat", 1⟩ ⟨"sat", 2⟩).2.2.2.2.1,
   (appendToken_insertion_order (pattern.new ⟨[]⟩).1 (pattern.new ⟨[]⟩).2
      (by decide) ⟨"the", 0⟩ ⟨"cat", 1⟩ ⟨"sat", 2⟩).2.2.2.2.2⟩

/-- C9: `isEmpty()` is true exactly when the Label's length is 0; an empty
Label is an ordinary value of the type, not an error. -/
theorem label_isEmpty_iff_length_zero (h : Heap tagID) (l : label) :
    label.isEmpty h l = true ↔ label.getLength h l = 0 := by
  cases hr : h.read l.tags with
  | nil => simp [label.isEmpty, label.getLength, hr]
  | cons x xs => simp [label.isEmpty, label.getLength, hr, List.isEmpty]

lemma beq_true_iff_len_and_pointwise (h : Heap tagID) (l1 l2 : label) :
    label.beq h l1 l2 = true ↔
      (label.getLength h l1 = label.getLength h l2 ∧
        ∀ i, i < label.getLength h l1 →
          label.getTag h l1 i = label.getTag h l2 i) := by
  simp [label.beq, List.all_eq_true]

/-- C6: Label equality holds exactly when the two Labels have equal length
and every tag ID matches positionally — equivalently, when the underlying
stored tag sequences coincide; Labels of different lengths are never equal. -/
theorem label_eq_iff_pointwise (h : Heap tagID) (l1 l2 : label) :
    (label.beq h l1 l2 = true ↔ h.read l1.tags = h.read l2.tags) ∧
    (label.getLength h l1 ≠ label.getLength h l2 →
      label.beq h l1 l2 = false) ∧
    (label.getLength h l1 = label.getLength h l2 →
      (label.beq h l1 l2 = true ↔
        ∀ i, i < label.getLength h l1 →
          label.getTag h l1 i = label.getTag h l2 i)) := by
  refine ⟨?_, ?_, ?_⟩
  · rw [beq_true_iff_len_and_pointwise]
    constructor
    · rintro ⟨hlen, hpt⟩
      refine List.ext_get hlen ?_
      intro n h1 h2
      have := hpt n h1
      rwa [label.getTag, label.getTag, getD_eq_get _ n 0 h1,
        getD_eq_get _ n 0 h2] at this
    · intro heq
      refine ⟨by simp [label.getLength, heq], ?_⟩
      intro i hi
      simp [label.getTag, heq]
  · intro hne
    rcases hb : label.beq h l1 l2 with _ | _
    · rfl
    · exact absurd ((beq_true_iff_len_and_pointwise h l1 l2).mp hb).1 hne
  · intro hlen
    rw [beq_true_iff_len_and_pointwise]
    exact ⟨fun hp => hp.2, fun hp => ⟨hlen, hp⟩⟩

/-- Witness for C6: Labels of lengths 2 and 1 compare unequal; two aliased
length-2 Labels with pointwise-equal tags compare equal. -/
theorem label_eq_iff_pointwise_witness :
    label.beq (Heap.mk [[0, 1], [0, 1], [0]]) ⟨0⟩ ⟨2⟩ = false ∧
    label.beq (Heap.mk [[0, 1], [0, 1], [0]]) ⟨0⟩ ⟨1⟩ = true :=
  ⟨(label_eq_iff_pointwise (Heap.mk [[0, 1], [0, 1], [0]]) ⟨0⟩ ⟨2⟩).2.1
      (by decide),
   ((label_eq_iff_pointwise (Heap.mk [[0, 1], [0, 1], [0]]) ⟨0⟩ ⟨1⟩).2.2
      (by decide)).mpr (by decide)⟩

lemma foldl_add_map_sum (l : List featEntry) (f : featEntry → ℚ)
    (init : ℚ) :
    l.foldl (fun acc p => acc + f p) init = init + (l.map f).sum := by
  induction l generalizing init with
  | nil => simp
  | cons x xs ih =>
    simp only [List.foldl, List.map, List.sum_cons]
    rw [ih]
    ring

/-- C7: `dotProduct` is the sparse-dense dot product of the Token's feature
vector with the weight array, and on feature map `{(2, 1.5), (5, -0.5)}` with
weights `[0, 0, 2.0, 0, 0, 1.0]` it returns `2.0 * 1.5 + 1.0 * (-0.5) = 2.5`. -/
theorem dotProduct_sparse_dense (fs : Heap featEntry) (t : token)
    (w : List ℚ) :
    token.dotProduct fs t w =
      ((fs.read t.features).map (fun p => w.getD p.1 0 * p.2)).sum ∧
    token.dotProduct (Heap.mk [[(2, 3 / 2), (5, -(1 / 2))]]) ⟨"", 0⟩
      [0, 0, 2, 0, 0, 1] = 5 / 2 := by
  constructor
  · rw [token.dotProduct, sprod_ns, foldl_add_map_sum, zero_add]
  · norm_num [token.dotProduct, sprod_ns, Heap.read, List.foldl, List.getD]

/-- C10: a copied Token shares the underlying feature vector, so for any
weight vector long enough for the token's feature indices the copy's dot
product equals the original's. -/
theorem token_copy_preserves_dotProduct (fs : Heap featEntry) (t : token)
    (w : List ℚ) (_hw : ∀ p ∈ fs.read t.features, p.1 < w.length) :
    token.dotProduct fs (token.copy t) w = token.dotProduct fs t w := rfl

/-- Witness for C10 at the concrete feature map and weights of the spec. -/
theorem token_copy_preserves_dotProduct_witness :
    token.dotProduct (Heap.mk [[(2, 3 / 2), (5, -(1 / 2))]])
        (token.copy ⟨"w", 0⟩) [0, 0, 2, 0, 0, 1] =
      token.dotProduct (Heap.mk [[(2, 3 / 2), (5, -(1 / 2))]]) ⟨"w", 0⟩
        [0, 0, 2, 0, 0, 1] :=
  token_copy_preserves_dotProduct (Heap.mk [[(2, 3 / 2), (5, -(1 / 2))]])
    ⟨"w", 0⟩ [0, 0, 2, 0, 0, 1] (by decide)

/-- C5 counterexample: the claim says `loss_type` selects the loss function
with Hamming loss as its default; but after default initialization
`loss_type` holds `DEFAULT_RESCALING = 2` (margin rescaling), not the
Hamming-loss selector `DEFAULT_LOSS_FCT = 1`. -/
theorem loss_type_default_is_rescaling_not_hamming :
    (setDefaultParams ⟨0, 0, 0, 0, [], 0, 0, 0, 0, 0⟩).loss_type ≠
      DEFAULT_LOSS_FCT ∧
    (setDefaultParams ⟨0, 0, 0, 0, [], 0, 0, 0, 0, 0⟩).loss_type =
      DEFAULT_RESCALING := by
  constructor
  · decide
  · rfl

/-- C5 (amended): `loss_function` selects the registered loss function and
defaults to `DEFAULT_LOSS_FCT = 1` (Hamming loss); the separate field
`loss_type` is the rescaling-mode setting, selecting between slack rescaling
(1) and margin rescaling (2), and defaults to `DEFAULT_RESCALING = 2`
(margin rescaling). -/
theorem loss_function_defaults_hamming_loss_type_rescaling
    (p : struct_learn_parm) :
    (setDefaultParams p).loss_function = DEFAULT_LOSS_FCT ∧
    DEFAULT_LOSS_FCT = 1 ∧
    (setDefaultParams p).loss_type = DEFAULT_RESCALING ∧
    DEFAULT_RESCALING = 2 ∧
    marginRescaling (setDefaultParams p) ∧
    ¬ slackRescaling (setDefaultParams p) :=
  ⟨rfl, rfl, rfl, rfl, rfl, by
    intro hcontra
    have h2 : (2 : Int) = 1 := hcontra
    norm_num at h2⟩
